import Mathlib

/-!
Verification of the spectral-analysis utilities of the `blastoise`/`sunburn`
repository: a shallow embedding of `tools.py` and `hst_observation.py`
(numeric arrays become `List ℚ`, with `ℝ` only where the code takes a square
root; raised exceptions become `Except`/`Option` results), together with
theorems settling the specification's claims about them.
-/

namespace Blastoise

/-! ## Numeric utilities from `tools.py` -/

/-- `np.min` of a (nonempty) array, as used by `pick_side`.  The empty case is
junk (numpy raises); all theorems are stated for nonempty sides. -/
def listMin : List ℚ → ℚ
  | [] => 0
  | x :: xs => xs.foldl min x

/-- `np.max` of a (nonempty) array. -/
def listMax : List ℚ → ℚ
  | [] => 0
  | x :: xs => xs.foldl max x

/-- `numpy.ndarray.searchsorted(v)` (side `'left'`) on a sorted array: the
leftmost insertion index, i.e. the first index whose element is `≥ v`, or the
length when every element is `< v`. -/
def searchsorted (a : List ℚ) (v : ℚ) : ℕ :=
  match a with
  | [] => 0
  | x :: xs => if v ≤ x then 0 else searchsorted xs v + 1

/-- `tools.nearest_index(array, target_value)`:
`index = array.searchsorted(v); index = np.clip(index, 1, len(array)-1);
left = array[index-1]; right = array[index];
index -= (v - left < right - v); return index`. -/
def nearest_index (a : List ℚ) (v : ℚ) : ℕ :=
  let i := min (max (searchsorted a v) 1) (a.length - 1)
  if v - a.getD (i - 1) 0 < a.getD i 0 - v then i - 1 else i

/-- The condition under which `pick_side` accepts a side: the requested range
is strictly inside the side's min/max
(`range[0] > np.min(side) and range[1] < np.max(side)`). -/
def insideSide (w : List ℚ) (r : ℚ × ℚ) : Prop :=
  listMin w < r.1 ∧ r.2 < listMax w

instance (w : List ℚ) (r : ℚ × ℚ) : Decidable (insideSide w r) := by
  unfold insideSide; infer_instance

/-- `tools.pick_side(wavelength_array, wavelength_range)`; `none` models the
`ValueError` ("The requested wavelength range is not available in this
spectrum"). -/
def pick_side (w0 w1 : List ℚ) (r : ℚ × ℚ) : Option ℕ :=
  if listMin w0 < r.1 ∧ r.2 < listMax w0 then some 0
  else if listMin w1 < r.1 ∧ r.2 < listMax w1 then some 1
  else none

/-- Python slice `l[i:j]`. -/
def listSlice (l : List ℚ) (i j : ℕ) : List ℚ := (l.take j).drop i

/-- `UVSpectrum.extract_wl(wavelength_range)` (sunburn `hst_observation.py`
lines 501-514): picks the side, then returns
`wavelength[ind][min_wl : max_wl + 1]` — the upper nearest-index is
*included*. -/
def extract_wl (w0 w1 : List ℚ) (r : ℚ × ℚ) : Option (List ℚ) :=
  match pick_side w0 w1 r with
  | none => none
  | some k =>
      let w := if k = 0 then w0 else w1
      some (listSlice w (nearest_index w r.1) (nearest_index w r.2 + 1))

/-- The flux (and error) window sliced by `UVSpectrum.integrated_flux`
(sunburn lines 340-350): `flux[ind][min_wl : max_wl]` — the upper
nearest-index is *excluded*.  The Simpson integration of that window is an
external `scipy` call; the claim under verification only concerns the slice
bounds. -/
def integrated_flux_window (w fl : List ℚ) (r : ℚ × ℚ) : List ℚ :=
  listSlice fl (nearest_index w r.1) (nearest_index w r.2)

/-! ## Facts about `searchsorted` and `nearest_index` -/

lemma searchsorted_le_length (a : List ℚ) (v : ℚ) : searchsorted a v ≤ a.length := by
  induction a with
  | nil => simp [searchsorted]
  | cons x xs ih =>
      simp only [searchsorted, List.length_cons]
      split
      · omega
      · omega

lemma getD_lt_of_lt_searchsorted (a : List ℚ) (v : ℚ) {j : ℕ}
    (hj : j < searchsorted a v) : a.getD j 0 < v := by
  induction a generalizing j with
  | nil => simp [searchsorted] at hj
  | cons x xs ih =>
      simp only [searchsorted] at hj
      by_cases hvx : v ≤ x
      · simp [hvx] at hj
      · simp only [if_neg hvx] at hj
        cases j with
        | zero => simpa using lt_of_not_le hvx
        | succ k => exact ih (by omega)

lemma le_getD_searchsorted (a : List ℚ) (v : ℚ)
    (h : searchsorted a v < a.length) : v ≤ a.getD (searchsorted a v) 0 := by
  induction a with
  | nil => simp at h
  | cons x xs ih =>
      simp only [searchsorted] at h ⊢
      by_cases hvx : v ≤ x
      · simp [hvx]
      · simp only [if_neg hvx] at h ⊢
        simpa using ih (by simpa using h)

lemma sorted_getD_mono (a : List ℚ) (hs : a.Sorted (· ≤ ·)) {i j : ℕ}
    (hij : i ≤ j) (hj : j < a.length) : a.getD i 0 ≤ a.getD j 0 := by
  rcases eq_or_lt_of_le hij with rfl | hlt
  · exact le_refl _
  · have hi : i < a.length := lt_trans hlt hj
    rw [List.getD_eq_getElem a 0 hi, List.getD_eq_getElem a 0 hj]
    exact List.Sorted.rel_get_of_lt hs hlt

lemma searchsorted_eq_zero (x : ℚ) (xs : List ℚ) (v : ℚ) (h : v ≤ x) :
    searchsorted (x :: xs) v = 0 := by
  simp [searchsorted, h]

lemma searchsorted_eq_length (a : List ℚ) (v : ℚ) (hs : a.Sorted (· ≤ ·))
    (hne : a ≠ []) (h : a.getD (a.length - 1) 0 < v) :
    searchsorted a v = a.length := by
  rcases eq_or_lt_of_le (searchsorted_le_length a v) with he | hlt
  · exact he
  · exfalso
    have h1 : v ≤ a.getD (searchsorted a v) 0 := le_getD_searchsorted a v hlt
    have h2 : a.getD (searchsorted a v) 0 ≤ a.getD (a.length - 1) 0 :=
      sorted_getD_mono a hs (by omega) (by
        have : 0 < a.length := List.length_pos.2 hne
        omega)
    linarith

lemma searchsorted_eq_of_straddle (a : List ℚ) (v : ℚ) (hs : a.Sorted (· ≤ ·))
    {i : ℕ} (hi0 : 0 < i) (hin : i < a.length)
    (hl : a.getD (i - 1) 0 < v) (hr : v ≤ a.getD i 0) :
    searchsorted a v = i := by
  by_cases hlo : searchsorted a v < i
  · exfalso
    have h1 : v ≤ a.getD (searchsorted a v) 0 :=
      le_getD_searchsorted a v (lt_trans hlo hin)
    have h2 : a.getD (searchsorted a v) 0 ≤ a.getD (i - 1) 0 :=
      sorted_getD_mono a hs (by omega) (by omega)
    linarith
  · by_cases hhi : i < searchsorted a v
    · exfalso
      have := getD_lt_of_lt_searchsorted a v hhi
      linarith
    · omega

lemma abs_sub_of_le {x v : ℚ} (h : x ≤ v) : |x - v| = v - x := by
  rw [abs_sub_comm]; exact abs_of_nonneg (by linarith)

lemma abs_sub_of_ge {x v : ℚ} (h : v ≤ x) : |x - v| = x - v :=
  abs_of_nonneg (by linarith)

/-- Core correctness of `nearest_index` on sorted arrays: the returned index
is in bounds and globally minimizes the distance `|a[i] - v|`. -/
lemma nearest_index_minimizer (a : List ℚ) (v : ℚ) (hs : a.Sorted (· ≤ ·))
    (h2 : 2 ≤ a.length) :
    nearest_index a v < a.length ∧
      ∀ j < a.length, |a.getD (nearest_index a v) 0 - v| ≤ |a.getD j 0 - v| := by
  have hn : 1 ≤ a.length - 1 := by omega
  set n := a.length with hnn
  set s := searchsorted a v with hss
  set i := min (max s 1) (n - 1) with hii
  have hsn : s ≤ n := searchsorted_le_length a v
  have hi1 : 1 ≤ i := le_min (le_max_right _ _) hn
  have hi2 : i ≤ n - 1 := min_le_right _ _
  have hiln : i < n := by omega
  have hi1n : i - 1 < n := by omega
  have hdef : nearest_index a v =
      if v - a.getD (i - 1) 0 < a.getD i 0 - v then i - 1 else i := rfl
  set L := a.getD (i - 1) 0 with hL
  set R := a.getD i 0 with hR
  have hLR : L ≤ R := sorted_getD_mono a hs (by omega) hiln
  have hbound : nearest_index a v < n := by
    rw [hdef]; split <;> omega
  refine ⟨hbound, ?_⟩
  intro j hj
  -- three regimes for the insertion point
  rcases Nat.lt_or_ge s 1 with hs0 | hs1
  · -- Case B : s = 0, hence v ≤ a[0]
    have hs0' : s = 0 := by omega
    have hieq : i = 1 := by rw [hii, hs0']; simp [Nat.min_eq_left hn]
    have hv0 : v ≤ a.getD 0 0 := by
      have := le_getD_searchsorted a v (by omega)
      rwa [← hss, hs0'] at this
    have hL0 : L = a.getD 0 0 := by rw [hL, hieq]
    have hvL : v ≤ L := by rw [hL0]; exact hv0
    have hja : a.getD 0 0 ≤ a.getD j 0 := sorted_getD_mono a hs (by omega) hj
    have hvj : v ≤ a.getD j 0 := le_trans hv0 hja
    rw [hdef]
    split
    · -- picked the left element a[0]
      have : i - 1 = 0 := by omega
      rw [this, abs_sub_of_ge hv0, abs_sub_of_ge hvj]
      linarith
    · -- tie degenerate: v ≤ L ≤ R yet ¬(v - L < R - v) forces L = v = R
      rename_i hcond
      have hvR : v ≤ R := le_trans hvL hLR
      have hRv : R = v := by linarith [not_lt.1 hcond]
      rw [abs_sub_of_ge hvR, hRv, abs_sub_of_ge hvj]
      linarith [abs_nonneg (a.getD j 0 - v)]
  · rcases Nat.lt_or_ge (n - 1) s with hsn1 | hsn2
    · -- Case C : s ≥ n, every element is < v
      have hsn' : s = n := by omega
      have hieq : i = n - 1 := by
        rw [hii]
        have : max s 1 = s := by omega
        rw [this]; omega
      have hall : ∀ k < n, a.getD k 0 < v := by
        intro k hk
        exact getD_lt_of_lt_searchsorted a v (by omega)
      have hLv : L < v := hall _ (by omega)
      have hRv : R < v := hall _ (by omega)
      have hjv : a.getD j 0 < v := hall _ hj
      have hcond : ¬ (v - L < R - v) := by intro hc; linarith
      rw [hdef, if_neg hcond, ← hR, abs_sub_of_le (le_of_lt hRv),
        abs_sub_of_le (le_of_lt hjv)]
      have : a.getD j 0 ≤ a.getD i 0 := sorted_getD_mono a hs (by omega) hiln
      rw [← hR] at this; linarith
    · -- Case A : 1 ≤ s ≤ n - 1, the generic straddle
      have hieq : i = s := by
        rw [hii]
        have : max s 1 = s := by omega
        rw [this]; omega
      have hLv : L < v := by
        rw [hL, hieq]
        exact getD_lt_of_lt_searchsorted a v (by omega)
      have hvR : v ≤ R := by
        rw [hR, hieq]
        exact le_getD_searchsorted a v (by omega)
      rw [hdef]
      rcases Nat.lt_or_ge j i with hji | hji
      · -- j is on the left of the straddle
        have hja : a.getD j 0 ≤ L := sorted_getD_mono a hs (by omega) hi1n
        have hjv : a.getD j 0 < v := lt_of_le_of_lt hja hLv
        split
        · rw [← hL, abs_sub_of_le (le_of_lt hLv), abs_sub_of_le (le_of_lt hjv)]
          linarith
        · rename_i hcond
          rw [← hR, abs_sub_of_ge hvR, abs_sub_of_le (le_of_lt hjv)]
          have := not_lt.1 hcond
          linarith
      · -- j is on the right of the straddle
        have hja : R ≤ a.getD j 0 := sorted_getD_mono a hs hji hj
        have hjv : v ≤ a.getD j 0 := le_trans hvR hja
        split
        · rename_i hcond
          rw [← hL, abs_sub_of_le (le_of_lt hLv), abs_sub_of_ge hjv]
          linarith
        · rw [← hR, abs_sub_of_ge hvR, abs_sub_of_ge hjv]
          linarith

/-- On an exact tie the code keeps the *right* (upper) straddling index:
`index -= (v - left < right - value)` subtracts nothing when the two
distances are equal. -/
lemma nearest_index_tie (a : List ℚ) (v : ℚ) (hs : a.Sorted (· ≤ ·))
    {i : ℕ} (hi0 : 0 < i) (hin : i < a.length)
    (hl : a.getD (i - 1) 0 < v) (hr : v ≤ a.getD i 0)
    (htie : v - a.getD (i - 1) 0 = a.getD i 0 - v) :
    nearest_index a v = i := by
  have hseq : searchsorted a v = i := searchsorted_eq_of_straddle a v hs hi0 hin hl hr
  have hdef : nearest_index a v =
      (let k := min (max (searchsorted a v) 1) (a.length - 1);
        if v - a.getD (k - 1) 0 < a.getD k 0 - v then k - 1 else k) := rfl
  rw [hdef, hseq]
  have hk : min (max i 1) (a.length - 1) = i := by omega
  simp only [hk]
  rw [if_neg (by rw [htie]; exact lt_irrefl _)]

lemma searchsorted_mono (a : List ℚ) {v w : ℚ} (hvw : v ≤ w) :
    searchsorted a v ≤ searchsorted a w := by
  induction a with
  | nil => simp [searchsorted]
  | cons x xs ih =>
      simp only [searchsorted]
      by_cases hwx : w ≤ x
      · rw [if_pos hwx, if_pos (le_trans hvw hwx)]
      · rw [if_neg hwx]
        by_cases hvx : v ≤ x
        · rw [if_pos hvx]; omega
        · rw [if_neg hvx]; omega

lemma nearest_index_mono (a : List ℚ) {v w : ℚ} (hvw : v ≤ w) :
    nearest_index a v ≤ nearest_index a w := by
  have hdv : nearest_index a v =
      (let k := min (max (searchsorted a v) 1) (a.length - 1);
        if v - a.getD (k - 1) 0 < a.getD k 0 - v then k - 1 else k) := rfl
  have hdw : nearest_index a w =
      (let k := min (max (searchsorted a w) 1) (a.length - 1);
        if w - a.getD (k - 1) 0 < a.getD k 0 - w then k - 1 else k) := rfl
  rw [hdv, hdw]
  set kv := min (max (searchsorted a v) 1) (a.length - 1) with hkv
  set kw := min (max (searchsorted a w) 1) (a.length - 1) with hkw
  have hk : kv ≤ kw :=
    min_le_min (max_le_max (searchsorted_mono a hvw) le_rfl) le_rfl
  by_cases hcv : v - a.getD (kv - 1) 0 < a.getD kv 0 - v
  · by_cases hcw : w - a.getD (kw - 1) 0 < a.getD kw 0 - w
    · simp only [if_pos hcv, if_pos hcw]; omega
    · simp only [if_pos hcv, if_neg hcw]; omega
  · by_cases hcw : w - a.getD (kw - 1) 0 < a.getD kw 0 - w
    · simp only [if_neg hcv, if_pos hcw]
      rcases eq_or_lt_of_le hk with heq | hlt
      · exfalso
        rw [← heq] at hcw
        have := not_lt.1 hcv
        linarith
      · omega
    · simp only [if_neg hcv, if_neg hcw]; omega

/-- `nearest_index` with its local `let` unfolded. -/
lemma nearest_index_eq (a : List ℚ) (v : ℚ) :
    nearest_index a v =
      if v - a.getD (min (max (searchsorted a v) 1) (a.length - 1) - 1) 0 <
          a.getD (min (max (searchsorted a v) 1) (a.length - 1)) 0 - v
      then min (max (searchsorted a v) 1) (a.length - 1) - 1
      else min (max (searchsorted a v) 1) (a.length - 1) := rfl

lemma nearest_index_lt_length (a : List ℚ) (v : ℚ) (h2 : 2 ≤ a.length) :
    nearest_index a v < a.length := by
  have hle : min (max (searchsorted a v) 1) (a.length - 1) ≤ a.length - 1 :=
    min_le_right _ _
  rw [nearest_index_eq]
  split <;> omega

lemma nearest_index_below (a : List ℚ) (v : ℚ) (hs : a.Sorted (· ≤ ·))
    (h2 : 2 ≤ a.length) (hv : v < a.getD 0 0) : nearest_index a v = 0 := by
  have hs0 : searchsorted a v = 0 := by
    rcases a with _ | ⟨x, xs⟩
    · simp at h2
    · exact searchsorted_eq_zero x xs v (le_of_lt (by simpa using hv))
  rw [nearest_index_eq, hs0]
  have hk : min (max 0 1) (a.length - 1) = 1 := by
    have h1 : max 0 1 = 1 := by omega
    rw [h1]
    omega
  rw [hk]
  have h01 : a.getD 0 0 ≤ a.getD 1 0 := sorted_getD_mono a hs (by omega) (by omega)
  have h10 : (1 : ℕ) - 1 = 0 := rfl
  have hc : v - a.getD (1 - 1) 0 < a.getD 1 0 - v := by
    rw [h10]
    linarith
  rw [if_pos hc]

lemma nearest_index_above (a : List ℚ) (v : ℚ) (hs : a.Sorted (· ≤ ·))
    (h2 : 2 ≤ a.length) (hv : a.getD (a.length - 1) 0 < v) :
    nearest_index a v = a.length - 1 := by
  have hne : a ≠ [] := by
    intro h; rw [h] at h2; simp at h2
  have hsl : searchsorted a v = a.length := searchsorted_eq_length a v hs hne hv
  rw [nearest_index_eq, hsl]
  have hk : min (max a.length 1) (a.length - 1) = a.length - 1 := by
    have : max a.length 1 = a.length := by omega
    rw [this]
    omega
  simp only [hk]
  have h1 : a.getD (a.length - 1 - 1) 0 ≤ a.getD (a.length - 1) 0 :=
    sorted_getD_mono a hs (by omega) (by omega)
  have hc : ¬ (v - a.getD (a.length - 1 - 1) 0 < a.getD (a.length - 1) 0 - v) := by
    intro hc
    linarith
  rw [if_neg hc]

/-! ## Claim theorems about `nearest_index` -/

/-- C2 counterexample: for the sorted array `[0, 2]` the value `1` is exactly
equidistant from the two straddling elements, yet `nearest_index` returns
index `1` (the upper/right neighbor), not the lower index `0` demanded by the
claim's "tie is resolved toward the lower (left) neighbor". -/
theorem claim_C2_counterexample :
    nearest_index [0, 2] 1 = 1 ∧ nearest_index [0, 2] 1 ≠ 0 ∧
      (1 : ℚ) - 0 = 2 - 1 := by
  refine ⟨?_, ?_, by norm_num⟩ <;> norm_num [nearest_index, searchsorted]

/-- C2 (amended): for every ascending-sorted array of length ≥ 2 and every
value within the array's range, `nearest_index` returns an in-bounds index
minimizing `|A[i] - v|`; when `v` is exactly equidistant from the two
straddling elements the tie is resolved toward the *upper* (right) neighbor,
because the strict-less comparison `value - left < right - value` fails on a
tie so the insertion index is kept. -/
theorem claim_C2_nearest_index (a : List ℚ) (v : ℚ) (hs : a.Sorted (· ≤ ·))
    (h2 : 2 ≤ a.length) (_hlo : a.getD 0 0 ≤ v)
    (_hhi : v ≤ a.getD (a.length - 1) 0) :
    (nearest_index a v < a.length ∧
      ∀ j < a.length, |a.getD (nearest_index a v) 0 - v| ≤ |a.getD j 0 - v|) ∧
    (∀ i, 0 < i → i < a.length → a.getD (i - 1) 0 < v → v ≤ a.getD i 0 →
      v - a.getD (i - 1) 0 = a.getD i 0 - v → nearest_index a v = i) :=
  ⟨nearest_index_minimizer a v hs h2,
    fun _ h1 h2' h3 h4 h5 => nearest_index_tie a v hs h1 h2' h3 h4 h5⟩

/-- C2 witness: the amended theorem at the concrete sorted array `[0, 1, 3]`
and value `2` (a tie between elements `1` and `3`). -/
theorem claim_C2_nearest_index_witness :
    (nearest_index [0, 1, 3] 2 < ([0, 1, 3] : List ℚ).length ∧
      ∀ j < ([0, 1, 3] : List ℚ).length,
        |([0, 1, 3] : List ℚ).getD (nearest_index [0, 1, 3] 2) 0 - 2| ≤
          |([0, 1, 3] : List ℚ).getD j 0 - 2|) ∧
    (∀ i, 0 < i → i < ([0, 1, 3] : List ℚ).length →
      ([0, 1, 3] : List ℚ).getD (i - 1) 0 < 2 →
      2 ≤ ([0, 1, 3] : List ℚ).getD i 0 →
      2 - ([0, 1, 3] : List ℚ).getD (i - 1) 0 =
        ([0, 1, 3] : List ℚ).getD i 0 - 2 →
      nearest_index [0, 1, 3] 2 = i) :=
  claim_C2_nearest_index [0, 1, 3] 2 (by decide) (by decide) (by decide)
    (by decide)

/-- C9: `nearest_index` is total on arrays of length at least 2: the result
is always within `[0, len-1]` (the insertion point is clipped to `[1, len-1]`
before the comparison), values below a sorted array's range map to index `0`,
and values above it map to index `len - 1`. -/
theorem claim_C9_nearest_index_total (a : List ℚ) (v : ℚ) (h2 : 2 ≤ a.length) :
    nearest_index a v < a.length ∧
    (a.Sorted (· ≤ ·) → v < a.getD 0 0 → nearest_index a v = 0) ∧
    (a.Sorted (· ≤ ·) → a.getD (a.length - 1) 0 < v →
      nearest_index a v = a.length - 1) :=
  ⟨nearest_index_lt_length a v h2,
    fun hs hv => nearest_index_below a v hs h2 hv,
    fun hs hv => nearest_index_above a v hs h2 hv⟩

/-- C9 witness: totality at the concrete array `[0, 1]` with the
out-of-range value `5`, which maps to the last index. -/
theorem claim_C9_nearest_index_total_witness :
    nearest_index [0, 1] 5 < ([0, 1] : List ℚ).length ∧
    (([0, 1] : List ℚ).Sorted (· ≤ ·) → (5 : ℚ) < ([0, 1] : List ℚ).getD 0 0 →
      nearest_index [0, 1] 5 = 0) ∧
    (([0, 1] : List ℚ).Sorted (· ≤ ·) →
      ([0, 1] : List ℚ).getD (([0, 1] : List ℚ).length - 1) 0 < 5 →
      nearest_index [0, 1] 5 = ([0, 1] : List ℚ).length - 1) :=
  claim_C9_nearest_index_total [0, 1] 5 (by decide)

/-! ## Claim theorems about `pick_side` and `extract_wl` -/

/-- C4: `pick_side` is total and deterministic.  A range strictly inside
side 0 returns index 0; a range strictly inside side 1 only returns index 1;
a range inside neither side (spanning both or contained in none) yields the
`RangeNotCoveredError` (modelled as `none`). -/
theorem claim_C4_pick_side (w0 w1 : List ℚ) (r : ℚ × ℚ) :
    (insideSide w0 r → pick_side w0 w1 r = some 0) ∧
    (¬ insideSide w0 r → insideSide w1 r → pick_side w0 w1 r = some 1) ∧
    (¬ insideSide w0 r → ¬ insideSide w1 r → pick_side w0 w1 r = none) := by
  unfold insideSide
  refine ⟨fun h => ?_, fun h0 h1 => ?_, fun h0 h1 => ?_⟩
  · unfold pick_side
    rw [if_pos h]
  · unfold pick_side
    rw [if_neg h0, if_pos h1]
  · unfold pick_side
    rw [if_neg h0, if_neg h1]

/-- C4 witness: the spec scenario with side 0 covering `[1260, 1270]` and
side 1 covering `[1025, 1035]`. -/
theorem claim_C4_pick_side_witness :
    pick_side [1260, 1270] [1025, 1035] (1261, 1269) = some 0 ∧
    pick_side [1260, 1270] [1025, 1035] (1026, 1034) = some 1 ∧
    pick_side [1260, 1270] [1025, 1035] (1024, 1036) = none :=
  ⟨(claim_C4_pick_side [1260, 1270] [1025, 1035] (1261, 1269)).1
      (by norm_num [insideSide, listMin, listMax]),
    (claim_C4_pick_side [1260, 1270] [1025, 1035] (1026, 1034)).2.1
      (by norm_num [insideSide, listMin, listMax])
      (by norm_num [insideSide, listMin, listMax]),
    (claim_C4_pick_side [1260, 1270] [1025, 1035] (1024, 1036)).2.2
      (by norm_num [insideSide, listMin, listMax])
      (by norm_num [insideSide, listMin, listMax])⟩

lemma listSlice_length (l : List ℚ) (i j : ℕ) :
    (listSlice l i j).length = min j l.length - i := by
  simp [listSlice]

/-- C8: over a range fully covered by detector side 0, `extract_wl` returns
the wavelength slice `[min_wl : max_wl + 1]` — including the nearest-index
of the upper bound — while the flux/error window used by `integrated_flux`
is `[min_wl : max_wl]`, excluding it, so the wavelength slice is exactly one
element longer. -/
theorem claim_C8_extract_wl_inclusive (w0 w1 fl : List ℚ) (r : ℚ × ℚ)
    (hin : insideSide w0 r) (_hs : w0.Sorted (· ≤ ·)) (h2 : 2 ≤ w0.length)
    (hr : r.1 ≤ r.2) (hfl : fl.length = w0.length) :
    extract_wl w0 w1 r =
      some (listSlice w0 (nearest_index w0 r.1) (nearest_index w0 r.2 + 1)) ∧
    (listSlice w0 (nearest_index w0 r.1) (nearest_index w0 r.2 + 1)).length =
      (integrated_flux_window w0 fl r).length + 1 := by
  have hp : pick_side w0 w1 r = some 0 := by
    unfold insideSide at hin
    unfold pick_side
    rw [if_pos hin]
  constructor
  · unfold extract_wl
    rw [hp]
    simp
  · have hm2 : nearest_index w0 r.2 < w0.length := nearest_index_lt_length w0 r.2 h2
    have hm1 : nearest_index w0 r.1 ≤ nearest_index w0 r.2 :=
      nearest_index_mono w0 hr
    rw [listSlice_length]
    unfold integrated_flux_window
    rw [listSlice_length, hfl]
    omega

/-- C8 witness: the inclusive/exclusive asymmetry at the concrete side
`[1, 2, 3, 4]` with the range `(3/2, 7/2)`. -/
theorem claim_C8_extract_wl_inclusive_witness :
    extract_wl [1, 2, 3, 4] [10, 20] (3/2, 7/2) =
      some (listSlice [1, 2, 3, 4] (nearest_index [1, 2, 3, 4] (3/2, 7/2).1)
        (nearest_index [1, 2, 3, 4] (3/2, 7/2).2 + 1)) ∧
    (listSlice [1, 2, 3, 4] (nearest_index [1, 2, 3, 4] (3/2, 7/2).1)
        (nearest_index [1, 2, 3, 4] (3/2, 7/2).2 + 1)).length =
      (integrated_flux_window [1, 2, 3, 4] [5, 6, 7, 8] (3/2, 7/2)).length + 1 :=
  claim_C8_extract_wl_inclusive [1, 2, 3, 4] [10, 20] [5, 6, 7, 8] (3/2, 7/2)
    (by norm_num [insideSide, listMin, listMax]) (by decide) (by decide)
    (by norm_num) (by decide)

/-! ## Spectrum state and `compute_proper_error` (both module copies) -/

/-- Array state of a sunburn `COSSpectrum`: per-side wavelength, flux, error,
gross counts, net count rate and sensitivity arrays, plus the scalar
`EXPTIME`.  The error lives in `ℝ` because `compute_proper_error` takes a
square root; everything the code keeps rational stays in `ℚ`. -/
structure COSState where
  wavelength0 : List ℚ := []
  wavelength1 : List ℚ := []
  flux0 : List ℚ := []
  flux1 : List ℚ := []
  error0 : List ℝ := []
  error1 : List ℝ := []
  gross_counts0 : List ℚ := []
  gross_counts1 : List ℚ := []
  net0 : List ℚ := []
  net1 : List ℚ := []
  sensitivity0 : List ℚ := []
  sensitivity1 : List ℚ := []
  exp_time : ℚ := 1

/-- sunburn `COSSpectrum.compute_proper_error(shift_net=1E-7)` (lines
547-553): `sensitivity = flux / (net + shift_net) / exp_time;`
`error = (gross_counts + 1.0) ** 0.5 * sensitivity`, on both detector
sides. -/
noncomputable def compute_proper_error (s : COSState) (shift_net : ℚ) : COSState :=
  let sens0 := List.zipWith (fun f n => f / (n + shift_net) / s.exp_time)
    s.flux0 s.net0
  let sens1 := List.zipWith (fun f n => f / (n + shift_net) / s.exp_time)
    s.flux1 s.net1
  { s with
    sensitivity0 := sens0
    sensitivity1 := sens1
    error0 := List.zipWith (fun (g sv : ℚ) => Real.sqrt ((g : ℝ) + 1) * (sv : ℝ))
      s.gross_counts0 sens0
    error1 := List.zipWith (fun (g sv : ℚ) => Real.sqrt ((g : ℝ) + 1) * (sv : ℝ))
      s.gross_counts1 sens1 }

/-- The default `shift_net = 1E-7` of the sunburn copy. -/
def shift_net_default : ℚ := 1 / 10 ^ 7

/-- Array state of a blastoise `COSSpectrum`; in this module copy `EXPTIME`
is read per side. -/
structure BCOSState where
  flux0 : List ℚ := []
  flux1 : List ℚ := []
  error0 : List ℝ := []
  error1 : List ℝ := []
  gross_counts0 : List ℚ := []
  gross_counts1 : List ℚ := []
  net0 : List ℚ := []
  net1 : List ℚ := []
  sensitivity0 : List ℚ := []
  sensitivity1 : List ℚ := []
  exp_time0 : ℚ := 1
  exp_time1 : ℚ := 1

/-- blastoise `COSSpectrum.compute_proper_error()` (lines 103-108): the rate
is divided by `net` directly — this copy takes no `shift_net` parameter and
adds no floor: `sensitivity = flux / net / exp_time;`
`error = (gross_counts + 1.0) ** 0.5 * sensitivity`. -/
noncomputable def blastoise_compute_proper_error (b : BCOSState) : BCOSState :=
  let sens0 := List.zipWith (fun f n => f / n / b.exp_time0) b.flux0 b.net0
  let sens1 := List.zipWith (fun f n => f / n / b.exp_time1) b.flux1 b.net1
  { b with
    sensitivity0 := sens0
    sensitivity1 := sens1
    error0 := List.zipWith (fun (g sv : ℚ) => Real.sqrt ((g : ℝ) + 1) * (sv : ℝ))
      b.gross_counts0 sens0
    error1 := List.zipWith (fun (g sv : ℚ) => Real.sqrt ((g : ℝ) + 1) * (sv : ℝ))
      b.gross_counts1 sens1 }

lemma getD_zipWith {α β γ : Type} (f : α → β → γ) (l1 : List α) (l2 : List β)
    (i : ℕ) (h1 : i < l1.length) (h2 : i < l2.length) (d1 : α) (d2 : β)
    (d3 : γ) :
    (List.zipWith f l1 l2).getD i d3 = f (l1.getD i d1) (l2.getD i d2) := by
  induction l1 generalizing l2 i with
  | nil => simp at h1
  | cons x xs ih =>
      cases l2 with
      | nil => simp at h2
      | cons y ys =>
          cases i with
          | zero => rfl
          | succ k =>
              simpa using ih ys k (by simpa using h1) (by simpa using h2)

/-- C1 counterexample: on the blastoise copy with
`flux = [1], net = [1], gross_counts = [0], exp_time = 1` the recomputed
error is `1`, while the claimed formula with the `shift_net = 1e-7` floor
gives `1 / (1 + 1e-7) ≠ 1`: the blastoise copy has no `shift_net` term. -/
theorem claim_C1_counterexample :
    ((blastoise_compute_proper_error
        { flux0 := [1], net0 := [1], gross_counts0 := [0],
          exp_time0 := 1 }).error0).getD 0 0 = 1 ∧
    ((blastoise_compute_proper_error
        { flux0 := [1], net0 := [1], gross_counts0 := [0],
          exp_time0 := 1 }).error0).getD 0 0 ≠
      Real.sqrt ((0 : ℝ) + 1) *
        ((1 : ℝ) / ((1 : ℝ) + ((1 / 10 ^ 7 : ℚ) : ℝ)) / (1 : ℝ)) := by
  have h1 : ((blastoise_compute_proper_error
      { flux0 := [1], net0 := [1], gross_counts0 := [0],
        exp_time0 := 1 }).error0).getD 0 0 = 1 := by
    norm_num [blastoise_compute_proper_error, Real.sqrt_one]
  refine ⟨h1, ?_⟩
  rw [h1]
  norm_num [Real.sqrt_one]

/-- C1 (amended): the sunburn copy of `compute_proper_error` recomputes each
pixel's error as `(gross + 1)^0.5 * (flux / (net + shift_net) / exp_time)`
on both detector sides; the blastoise copy implements the same formula but
*without* the `shift_net` additive floor, dividing by `net` directly (and
with per-side exposure times). -/
theorem claim_C1_compute_proper_error (s : COSState) (b : BCOSState)
    (shift_net : ℚ) (i : ℕ) :
    (i < s.flux0.length → i < s.net0.length → i < s.gross_counts0.length →
      ((compute_proper_error s shift_net).error0).getD i 0 =
        Real.sqrt ((s.gross_counts0.getD i 0 : ℝ) + 1) *
          ((s.flux0.getD i 0 : ℝ) / ((s.net0.getD i 0 : ℝ) + (shift_net : ℝ)) /
            (s.exp_time : ℝ))) ∧
    (i < s.flux1.length → i < s.net1.length → i < s.gross_counts1.length →
      ((compute_proper_error s shift_net).error1).getD i 0 =
        Real.sqrt ((s.gross_counts1.getD i 0 : ℝ) + 1) *
          ((s.flux1.getD i 0 : ℝ) / ((s.net1.getD i 0 : ℝ) + (shift_net : ℝ)) /
            (s.exp_time : ℝ))) ∧
    (i < b.flux0.length → i < b.net0.length → i < b.gross_counts0.length →
      ((blastoise_compute_proper_error b).error0).getD i 0 =
        Real.sqrt ((b.gross_counts0.getD i 0 : ℝ) + 1) *
          ((b.flux0.getD i 0 : ℝ) / (b.net0.getD i 0 : ℝ) /
            (b.exp_time0 : ℝ))) := by
  refine ⟨fun hf hn hg => ?_, fun hf hn hg => ?_, fun hf hn hg => ?_⟩
  · simp only [compute_proper_error]
    rw [getD_zipWith _ _ _ i hg
      (by rw [List.length_zipWith]; omega) 0 0 0]
    rw [getD_zipWith _ _ _ i hf hn 0 0 0]
    push_cast
    ring
  · simp only [compute_proper_error]
    rw [getD_zipWith _ _ _ i hg
      (by rw [List.length_zipWith]; omega) 0 0 0]
    rw [getD_zipWith _ _ _ i hf hn 0 0 0]
    push_cast
    ring
  · simp only [blastoise_compute_proper_error]
    rw [getD_zipWith _ _ _ i hg
      (by rw [List.length_zipWith]; omega) 0 0 0]
    rw [getD_zipWith _ _ _ i hf hn 0 0 0]
    push_cast
    ring

/-- C1 witness: the spec's own scenario on the sunburn copy —
`gross = 0, flux = 1e-14, net = 1e-15, exp_time = 1000, shift_net = 1e-7`. -/
theorem claim_C1_compute_proper_error_witness :
    ((compute_proper_error
        { flux0 := [1 / 10 ^ 14], net0 := [1 / 10 ^ 15],
          gross_counts0 := [0], exp_time := 1000 }
        (1 / 10 ^ 7)).error0).getD 0 0 =
      Real.sqrt ((((0 : ℚ)) : ℝ) + 1) *
        (((1 / 10 ^ 14 : ℚ) : ℝ) /
          (((1 / 10 ^ 15 : ℚ) : ℝ) + ((1 / 10 ^ 7 : ℚ) : ℝ)) /
          ((1000 : ℚ) : ℝ)) := by
  have h := (claim_C1_compute_proper_error
    { flux0 := [1 / 10 ^ 14], net0 := [1 / 10 ^ 15],
      gross_counts0 := [0], exp_time := 1000 }
    {} (1 / 10 ^ 7) 0).1 (by decide) (by decide) (by decide)
  simpa using h

/-! ## `correct_systematic` (sunburn lines 849-903) -/

/-- `np.sum(axis=0)` over a stack of equal-length rows. -/
def sumAxis0 : List (List ℚ) → List ℚ
  | [] => []
  | [l] => l
  | l :: ls => List.zipWith (· + ·) l (sumAxis0 ls)

/-- `COSSpectrum.correct_systematic` after the polynomial fit: the
correction factors `corr_factor = np.poly1d(np.polyfit(...))(mod_jd)` come
from external `numpy` fitting and are taken as an input array here; the
modelled part is the state update (lines 884-903): each split's flux on both
sides is divided by its correction factor, optionally re-deriving the
split's proper error; then the parent's flux on each side becomes the
per-split mean, and — only when `recompute_errors` is `True` (default
`False`) — the parent's error is recomputed by `compute_proper_error` from
the parent's own count arrays (the code calls it once per side with the
same effect; it never combines the splits' errors). -/
noncomputable def correct_systematic (parent : COSState) (splits : List COSState)
    (corr_factor : List ℚ) (recompute_errors : Bool) : COSState × List COSState :=
  let n := splits.length
  let splits2 := (splits.zip corr_factor).map (fun p =>
    let sp := { p.1 with
      flux0 := p.1.flux0.map (fun x => x / p.2),
      flux1 := p.1.flux1.map (fun x => x / p.2) }
    if recompute_errors then compute_proper_error sp shift_net_default else sp)
  let mean_flux0 := (sumAxis0 (splits2.map (·.flux0))).map (· / (n : ℚ))
  let mean_flux1 := (sumAxis0 (splits2.map (·.flux1))).map (· / (n : ℚ))
  let parent2 := { parent with flux0 := mean_flux0, flux1 := mean_flux1 }
  (if recompute_errors then compute_proper_error parent2 shift_net_default
    else parent2, splits2)

/-- C3: at a concrete two-split input the splits' fluxes are divided by
their correction factors and the parent flux becomes their mean, but the
parent error is left untouched (`[1]`) instead of becoming the
quadrature-combined, count-normalized per-split error
`sqrt(3² + 4²) / 2 = 5/2` promised by the claim and by the code's own
comment ("the uncertainties by the quadratic sum of those of the
splits"). -/
theorem claim_C3_correct_systematic_bug :
    ((correct_systematic { flux0 := [2], error0 := [(1 : ℝ)] }
        [{ flux0 := [6], error0 := [(3 : ℝ)] },
          { flux0 := [8], error0 := [(4 : ℝ)] }] [2, 2] false).2.map
      (·.flux0) = [[3], [4]]) ∧
    ((correct_systematic { flux0 := [2], error0 := [(1 : ℝ)] }
        [{ flux0 := [6], error0 := [(3 : ℝ)] },
          { flux0 := [8], error0 := [(4 : ℝ)] }] [2, 2] false).1.flux0
      = [7 / 2]) ∧
    ((correct_systematic { flux0 := [2], error0 := [(1 : ℝ)] }
        [{ flux0 := [6], error0 := [(3 : ℝ)] },
          { flux0 := [8], error0 := [(4 : ℝ)] }] [2, 2] false).1.error0
      = [(1 : ℝ)]) ∧
    Real.sqrt ((3 : ℝ) ^ 2 + (4 : ℝ) ^ 2) / 2 = 5 / 2 ∧
    (1 : ℝ) ≠ 5 / 2 := by
  refine ⟨?_, ?_, ?_, ?_, by norm_num⟩
  · norm_num [correct_systematic, sumAxis0]
  · norm_num [correct_systematic, sumAxis0]
  · norm_num [correct_systematic, sumAxis0]
  · rw [show (3 : ℝ) ^ 2 + (4 : ℝ) ^ 2 = 5 ^ 2 by norm_num,
      Real.sqrt_sq (by norm_num : (0 : ℝ) ≤ 5)]

/-! ## `Visit.__init__` (sunburn lines 51-74) -/

/-- The `NotImplementedError` of the STIS branch. -/
inductive VisitError where
  | notImplementedSTIS
deriving DecidableEq

/-- The dataset loop of sunburn `Visit.__init__`: for each dataset name,
instrument `'cos'` loads a `COSSpectrum` (external FITS I/O abstracted as
`load`) and optionally recomputes its proper error, while instrument
`'stis'` raises `NotImplementedError` before loading anything; any other
instrument string silently skips the dataset. -/
noncomputable def visit_init (load : String → COSState) (cpe : Bool)
    (instrument : String) :
    List String → Except VisitError (List (String × COSState))
  | [] => .ok []
  | d :: ds =>
      if instrument = "cos" then
        match visit_init load cpe instrument ds with
        | .ok rest =>
            .ok ((d, if cpe then compute_proper_error (load d) shift_net_default
              else load d) :: rest)
        | .error e => .error e
      else if instrument = "stis" then .error .notImplementedSTIS
      else visit_init load cpe instrument ds

/-- C10: constructing a `Visit` with instrument `'stis'` fails with
`NotImplementedError` for every non-empty dataset list, whatever the loader
and error-recomputation flag; no STIS-holding `Visit` can be created. -/
theorem claim_C10_visit_stis (load : String → COSState) (cpe : Bool)
    (d : String) (ds : List String) :
    visit_init load cpe "stis" (d :: ds) =
      Except.error VisitError.notImplementedSTIS := by
  unfold visit_init
  rw [if_neg (by decide : ¬ ("stis" : String) = "cos"), if_pos rfl]

/-! ## Time-tag split stamping (sunburn lines 686-695 and 716-724) -/

/-- `time_step = ((self.exp_time / n_splits) * u.s).to(u.d)`: the per-split
duration, converted from seconds to Julian-Date days. -/
def time_step (exp_time : ℚ) (n_splits : ℕ) : ℚ :=
  exp_time / n_splits / 86400

/-- `split_obs.start_JD += i * time_step` — the JD carried by the split's
own file (the external `splittag` pipeline copies the parent exposure's
header, so it equals the parent's start JD) advanced by `i` steps.  The same
stamping is performed by both `time_tag_split` and `assign_splits`. -/
def split_start_JD (file_start exp_time : ℚ) (n_splits i : ℕ) : ℚ :=
  file_start + i * time_step exp_time n_splits

/-- `split_obs.end_JD -= time_step * (n_splits - i - 1)`. -/
def split_end_JD (file_end exp_time : ℚ) (n_splits i : ℕ) : ℚ :=
  file_end - time_step exp_time n_splits * ((n_splits - i - 1 : ℕ) : ℚ)

/-- C6: when the split files carry the parent's time window (start `S`, end
`S + T/86400` for an exposure of `T` seconds), split `i` of `n` is stamped
with start offset `i·(T/n)` and end offset `(i+1)·(T/n)` seconds from the
parent start, so all `n` split durations are equal and sum exactly to the
parent duration. -/
theorem claim_C6_split_offsets (S T : ℚ) (n i : ℕ) (hn : 1 ≤ n) (hi : i < n) :
    split_start_JD S T n i = S + (i * (T / n)) / 86400 ∧
    split_end_JD (S + T / 86400) T n i = S + ((i + 1) * (T / n)) / 86400 ∧
    split_end_JD (S + T / 86400) T n i - split_start_JD S T n i =
      (T / n) / 86400 ∧
    (Finset.range n).sum
        (fun k => split_end_JD (S + T / 86400) T n k - split_start_JD S T n k)
      = T / 86400 := by
  have hn0 : (n : ℚ) ≠ 0 := Nat.cast_ne_zero.mpr (by omega)
  have hstart : ∀ k : ℕ, split_start_JD S T n k = S + (k * (T / n)) / 86400 := by
    intro k
    unfold split_start_JD time_step
    ring
  have hend : ∀ k < n, split_end_JD (S + T / 86400) T n k =
      S + ((k + 1) * (T / n)) / 86400 := by
    intro k hk
    unfold split_end_JD time_step
    have hc : ((n - k - 1 : ℕ) : ℚ) = (n : ℚ) - (k : ℚ) - 1 := by
      have h1 : (n - k - 1 : ℕ) = n - (k + 1) := by omega
      rw [h1, Nat.cast_sub (by omega)]
      push_cast
      ring
    rw [hc]
    field_simp
    ring
  have hdur : ∀ k < n, split_end_JD (S + T / 86400) T n k -
      split_start_JD S T n k = (T / n) / 86400 := by
    intro k hk
    rw [hend k hk, hstart k]
    ring
  refine ⟨hstart i, hend i hi, hdur i hi, ?_⟩
  rw [Finset.sum_congr rfl (fun k hk => hdur k (Finset.mem_range.1 hk))]
  rw [Finset.sum_const, Finset.card_range, nsmul_eq_mul]
  field_simp
  ring

/-- C6 witness: a 1200 s exposure split in 3; split `1` runs from offset
400 s to offset 800 s (in days: 400/86400 and 800/86400). -/
theorem claim_C6_split_offsets_witness :
    split_start_JD 0 1200 3 1 = 0 + (1 * ((1200 : ℚ) / 3)) / 86400 ∧
    split_end_JD (0 + (1200 : ℚ) / 86400) 1200 3 1 =
      0 + ((1 + 1) * ((1200 : ℚ) / 3)) / 86400 ∧
    split_end_JD (0 + (1200 : ℚ) / 86400) 1200 3 1 -
      split_start_JD 0 1200 3 1 = ((1200 : ℚ) / 3) / 86400 ∧
    (Finset.range 3).sum
        (fun k => split_end_JD (0 + (1200 : ℚ) / 86400) 1200 3 k -
          split_start_JD 0 1200 3 k)
      = (1200 : ℚ) / 86400 :=
  claim_C6_split_offsets 0 1200 3 1 (by norm_num) (by norm_num)

/-! ## `combine_spectra` (tools lines 265-312) -/

/-- Piecewise-linear interpolation through the node list `ps`
(abscissa/ordinate pairs), returning the fixed `fill` value outside the
domain — the behaviour of
`scipy.interpolate.interp1d(kind='linear', bounds_error=False,
fill_value=fill)` evaluated at one point.  (scipy rejects fewer than two
nodes; those cases are junk `fill`.) -/
def interp_pts (fill : ℚ) : List (ℚ × ℚ) → ℚ → ℚ
  | [], _ => fill
  | [_], _ => fill
  | (x0, y0) :: (x1, y1) :: rest, x =>
      if x < x0 then fill
      else if x ≤ x1 then y0 + (y1 - y0) * (x - x0) / (x1 - x0)
      else interp_pts fill ((x1, y1) :: rest) x

/-- `scipy.interpolate.interp1d(xs, ys, kind='linear', bounds_error=False,
fill_value=fill)` evaluated at `x`. -/
def interp1d (xs ys : List ℚ) (fill x : ℚ) : ℚ :=
  interp_pts fill (xs.zip ys) x

/-- `astropy.constants.c.to(u.km / u.s).value`. -/
def lightSpeed : ℚ := 299792458 / 1000

/-- `tools.combine_spectra(wavelength_list, flux_list, uncertainty_list,
ref_wavelength, wavelength_grid)`: every spectrum is linearly interpolated
onto a common grid (default: the first spectrum's own grid) with
out-of-domain fill `1e-18`; the returned flux is the unweighted mean
(`np.mean(..., axis=0)`) and the returned uncertainty the quadrature sum
divided by the number of spectra; with `ref_wavelength` given a Doppler
velocity axis is additionally returned (modelled as the `Option`
component). -/
noncomputable def combine_spectra
    (wavelength_list flux_list uncertainty_list : List (List ℚ))
    (ref_wavelength : Option ℚ) (wavelength_grid : Option (List ℚ)) :
    List ℚ × Option (List ℚ) × List ℚ × List ℝ :=
  let n := wavelength_list.length
  let wavelength := wavelength_grid.getD (wavelength_list.headD [])
  let flux := (wavelength_list.zip flux_list).map
    (fun p => wavelength.map (interp1d p.1 p.2 (1 / 10 ^ 18)))
  let f_unc := (wavelength_list.zip uncertainty_list).map
    (fun p => wavelength.map (interp1d p.1 p.2 (1 / 10 ^ 18)))
  let mean_flux := (sumAxis0 flux).map (fun x => x / (n : ℚ))
  let comb_unc :=
    (sumAxis0 (f_unc.map (fun l => l.map (fun x => x ^ 2)))).map
      (fun sq => Real.sqrt ((sq : ℚ) : ℝ) / ((n : ℕ) : ℝ))
  let velocity := ref_wavelength.map
    (fun rw => wavelength.map (fun w => (w - rw) / rw * lightSpeed))
  (wavelength, velocity, mean_flux, comb_unc)

lemma sorted_getD_strict (a : List ℚ) (hs : a.Sorted (· < ·)) {i j : ℕ}
    (hij : i < j) (hj : j < a.length) : a.getD i 0 < a.getD j 0 := by
  have hi : i < a.length := lt_trans hij hj
  rw [List.getD_eq_getElem a 0 hi, List.getD_eq_getElem a 0 hj]
  exact List.Sorted.rel_get_of_lt hs hij

lemma getD_map_fst (ps : List (ℚ × ℚ)) (i : ℕ) :
    (ps.map Prod.fst).getD i 0 = (ps.getD i (0, 0)).1 :=
  List.getD_map ps (0, 0) Prod.fst

lemma getD_zip {α β : Type} (xs : List α) (ys : List β) (i : ℕ)
    (h1 : i < xs.length) (h2 : i < ys.length) (d1 : α) (d2 : β) :
    (xs.zip ys).getD i (d1, d2) = (xs.getD i d1, ys.getD i d2) := by
  induction xs generalizing ys i with
  | nil => simp at h1
  | cons x xs ih =>
      cases ys with
      | nil => simp at h2
      | cons y ys =>
          cases i with
          | zero => rfl
          | succ k =>
              simpa using ih ys k (by simpa using h1) (by simpa using h2)

lemma interp_pts_cons2 (fill x0 y0 x1 y1 x : ℚ) (rest : List (ℚ × ℚ)) :
    interp_pts fill ((x0, y0) :: (x1, y1) :: rest) x =
      if x < x0 then fill
      else if x ≤ x1 then y0 + (y1 - y0) * (x - x0) / (x1 - x0)
      else interp_pts fill ((x1, y1) :: rest) x := rfl

/-- Linear interpolation through strictly increasing nodes reproduces the
node ordinates exactly. -/
lemma interp_pts_node (fill : ℚ) :
    ∀ ps : List (ℚ × ℚ), 2 ≤ ps.length →
      (ps.map Prod.fst).Sorted (· < ·) →
      ∀ j < ps.length,
        interp_pts fill ps (ps.getD j (0, 0)).1 = (ps.getD j (0, 0)).2
  | [], h2, _, _, _ => by simp at h2
  | [_], h2, _, _, _ => by simp at h2
  | (x0, y0) :: (x1, y1) :: rest, _, hsort, j, hj => by
      have hx01 : x0 < x1 := by
        have h := (List.sorted_cons.1 hsort).1
        exact h x1 (by simp)
      have hsort1 : (((x1, y1) :: rest).map Prod.fst).Sorted (· < ·) :=
        (List.sorted_cons.1 hsort).2
      match j with
      | 0 =>
          show interp_pts fill _ x0 = y0
          rw [interp_pts_cons2, if_neg (lt_irrefl x0),
            if_pos (le_of_lt hx01), sub_self, mul_zero, zero_div, add_zero]
      | 1 =>
          show interp_pts fill _ x1 = y1
          rw [interp_pts_cons2, if_neg (not_lt.2 (le_of_lt hx01)),
            if_pos (le_refl x1), mul_div_assoc,
            div_self (ne_of_gt (sub_pos.2 hx01)), mul_one]
          ring
      | (k + 2) =>
          have hk : k + 1 < ((x1, y1) :: rest).length := by
            simpa using hj
          have hxk : x1 < (((x1, y1) :: rest).getD (k + 1) (0, 0)).1 := by
            have h := sorted_getD_strict (((x1, y1) :: rest).map Prod.fst)
              hsort1 (i := 0) (j := k + 1) (by omega) (by simpa using hk)
            rwa [getD_map_fst, getD_map_fst] at h
          have hgd : (((x0, y0) :: (x1, y1) :: rest).getD (k + 2) (0, 0)) =
              (((x1, y1) :: rest).getD (k + 1) (0, 0)) := rfl
          rw [hgd, interp_pts_cons2,
            if_neg (not_lt.2 (le_of_lt (lt_trans hx01 hxk))),
            if_neg (not_le.2 hxk)]
          exact interp_pts_node fill ((x1, y1) :: rest) (by omega) hsort1
            (k + 1) hk

/-- Evaluating the linear interpolant of `(xs, ys)` back at its own grid
returns `ys` unchanged. -/
lemma interp1d_self_grid (xs ys : List ℚ) (fill : ℚ) (h2 : 2 ≤ xs.length)
    (hlen : ys.length = xs.length) (hsort : xs.Sorted (· < ·)) :
    xs.map (interp1d xs ys fill) = ys := by
  have hzlen : (xs.zip ys).length = xs.length := by
    rw [List.length_zip]; omega
  have hfst : (xs.zip ys).map Prod.fst = xs :=
    List.map_fst_zip xs ys (by omega)
  apply List.ext_getElem (by simpa using hlen.symm)
  intro j hj1 hj2
  have hjx : j < xs.length := by simpa using hj1
  have hjz : j < (xs.zip ys).length := by omega
  have hnode := interp_pts_node fill (xs.zip ys) (by omega)
    (by rwa [hfst]) j hjz
  rw [getD_zip xs ys j hjx (by omega) 0 0] at hnode
  have hx : xs[j] = xs.getD j 0 := (List.getD_eq_getElem xs 0 hjx).symm
  have hy : ys[j] = ys.getD j 0 :=
    (List.getD_eq_getElem ys 0 (by omega)).symm
  rw [List.getElem_map, hx, hy]
  exact hnode

lemma zipWith_add_map_mul (c : ℚ) (l : List ℚ) :
    List.zipWith (· + ·) l (l.map (fun x => c * x)) =
      l.map (fun x => (c + 1) * x) := by
  induction l with
  | nil => rfl
  | cons x xs ih =>
      simp only [List.map_cons, List.zipWith_cons_cons, ih, List.cons.injEq]
      constructor
      · ring
      · trivial

lemma sumAxis0_replicate (l : List ℚ) :
    ∀ n : ℕ, 1 ≤ n →
      sumAxis0 (List.replicate n l) = l.map (fun x => (n : ℚ) * x)
  | 0, h => by omega
  | 1, _ => by
      simp [sumAxis0, List.replicate_succ]
  | (n + 2), _ => by
      have ih := sumAxis0_replicate l (n + 1) (by omega)
      rw [List.replicate_succ]
      rw [show sumAxis0 (l :: List.replicate (n + 1) l) =
          List.zipWith (· + ·) l (sumAxis0 (List.replicate (n + 1) l)) from by
        rw [List.replicate_succ]
        rfl]
      rw [ih, zipWith_add_map_mul]
      apply List.map_congr_left
      intro x _
      push_cast
      ring

/-- C7: `combine_spectra` applied to `N ≥ 1` identical copies of one
spectrum, with the default grid, returns the original flux unchanged and an
error array equal to the original error divided by `sqrt N`: the errors are
quadrature-summed (`sqrt(N·e²)`) and then divided by `N`. -/
theorem claim_C7_combine_spectra_identical (n : ℕ) (wl fl ul : List ℚ)
    (hn : 1 ≤ n) (hsort : wl.Sorted (· < ·)) (h2 : 2 ≤ wl.length)
    (hf : fl.length = wl.length) (hu : ul.length = wl.length)
    (hpos : ∀ e ∈ ul, 0 ≤ e) :
    combine_spectra (List.replicate n wl) (List.replicate n fl)
      (List.replicate n ul) none none =
      (wl, none, fl,
        ul.map (fun e => ((e : ℚ) : ℝ) / Real.sqrt ((n : ℕ) : ℝ))) := by
  obtain ⟨m, rfl⟩ : ∃ m, n = m + 1 := ⟨n - 1, by omega⟩
  have hwl : (List.replicate (m + 1) wl).headD [] = wl := by
    simp [List.replicate_succ]
  have hN0 : (0 : ℚ) < ((m + 1 : ℕ) : ℚ) := by positivity
  have hNR : (0 : ℝ) < ((m + 1 : ℕ) : ℝ) := by positivity
  have hsqrtN : (0 : ℝ) < Real.sqrt ((m + 1 : ℕ) : ℝ) := Real.sqrt_pos.2 hNR
  simp only [combine_spectra, Option.getD_none, hwl, List.length_replicate,
    Option.map_none', Prod.mk.injEq]
  refine ⟨trivial, trivial, ?_, ?_⟩
  · rw [List.zip_replicate, min_self, List.map_replicate,
      interp1d_self_grid wl fl (1 / 10 ^ 18) h2 hf hsort,
      sumAxis0_replicate fl (m + 1) (by omega), List.map_map]
    have hid : ∀ x ∈ fl,
        ((fun x => x / ((m + 1 : ℕ) : ℚ)) ∘ fun x => ((m + 1 : ℕ) : ℚ) * x) x
          = id x := by
      intro x _
      simp only [Function.comp_apply, id]
      exact mul_div_cancel_left₀ x (ne_of_gt hN0)
    rw [List.map_congr_left hid, List.map_id]
  · rw [List.zip_replicate, min_self, List.map_replicate,
      interp1d_self_grid wl ul (1 / 10 ^ 18) h2 hu hsort,
      List.map_replicate, sumAxis0_replicate (ul.map fun x => x ^ 2) (m + 1)
        (by omega),
      List.map_map, List.map_map]
    apply List.map_congr_left
    intro e he
    have he0 : (0 : ℝ) ≤ ((e : ℚ) : ℝ) := by
      exact_mod_cast hpos e he
    simp only [Function.comp_apply]
    push_cast
    have hNR' : (0 : ℝ) < (m : ℝ) + 1 := by positivity
    have hsqrtN' : (0 : ℝ) < Real.sqrt ((m : ℝ) + 1) := Real.sqrt_pos.2 hNR'
    rw [Real.sqrt_mul (le_of_lt hNR'), Real.sqrt_sq he0,
      div_eq_div_iff (ne_of_gt hNR') (ne_of_gt hsqrtN'),
      mul_comm (Real.sqrt _) ((e : ℚ) : ℝ), mul_assoc,
      Real.mul_self_sqrt (le_of_lt hNR')]

/-- C7 witness: four identical copies of the spectrum
`(wl, fl, ul) = ([1,2], [5,7], [0,3])`. -/
theorem claim_C7_combine_spectra_identical_witness :
    combine_spectra (List.replicate 4 [1, 2]) (List.replicate 4 [5, 7])
      (List.replicate 4 [0, 3]) none none =
      ([1, 2], none, [5, 7],
        ([0, 3] : List ℚ).map
          (fun e => ((e : ℚ) : ℝ) / Real.sqrt ((4 : ℕ) : ℝ))) :=
  claim_C7_combine_spectra_identical 4 [1, 2] [5, 7] [0, 3] (by norm_num)
    (by decide) (by decide) (by decide) (by decide) (by decide)

/-! ## `bin_spectrum` (tools lines 222-261) -/

/-- `np.arange(start, stop, step)`: `⌈(stop - start)/step⌉` points spaced by
`step` from `start`. -/
def arangeQ (start stop step : ℚ) : List ℚ :=
  (List.range (Int.toNat ⌈(stop - start) / step⌉)).map
    (fun k => start + k * step)

/-- Sample membership in bin `i` of an edge list, following
`scipy.stats.binned_statistic`: bins are half-open `[e_i, e_{i+1})`, except
the last bin which also includes its right edge. -/
def inBin (edges : List ℚ) (i : ℕ) (x : ℚ) : Bool :=
  if i + 2 = edges.length then
    decide (edges.getD i 0 ≤ x) && decide (x ≤ edges.getD (i + 1) 0)
  else
    decide (edges.getD i 0 ≤ x) && decide (x < edges.getD (i + 1) 0)

/-- Indices of the samples whose `ds` value falls into bin `i`. -/
def binMembers (edges ds : List ℚ) (i : ℕ) : List ℕ :=
  (List.range ds.length).filter (fun j => inBin edges i (ds.getD j 0))

/-- `binned_statistic(ds, vals, bins=edges, statistic='mean')` at bin `i`
(an empty bin is junk, as is numpy's NaN). -/
def binned_mean (edges ds vals : List ℚ) (i : ℕ) : ℚ :=
  ((binMembers edges ds i).map (fun j => vals.getD j 0)).sum /
    ((binMembers edges ds i).length : ℚ)

/-- `binned_statistic(..., statistic='sum')` at bin `i`. -/
def binned_sum (edges ds vals : List ℚ) (i : ℕ) : ℚ :=
  ((binMembers edges ds i).map (fun j => vals.getD j 0)).sum

/-- `binned_statistic(..., statistic='count')` at bin `i`. -/
def binned_count (edges ds : List ℚ) (i : ℕ) : ℕ :=
  (binMembers edges ds i).length

/-- `tools.bin_spectrum(bin_width, wavelength, doppler_shift, flux,
flux_uncertainty, final_uncertainty)`: velocity bins
`np.arange(min(ds), max(ds) + bw, bw)`; per-bin means of wavelength,
velocity and flux; the `'combine'` uncertainty is
`(binned sum of u²)^0.5 / (binned count)^0.5`, the `'poisson'` uncertainty
is `np.mean(poisson_conf_interval(f_bin), axis=0)` — the astropy
`poisson_conf_interval` is an external collaborator abstracted as the
argument `pci` giving the (lower, upper) interval of a binned flux — and
any other mode raises `ValueError` (modelled as `Except.error`). -/
noncomputable def bin_spectrum (bin_width : ℚ)
    (wavelength doppler_shift flux flux_uncertainty : List ℚ)
    (final_uncertainty : String) (pci : ℚ → ℚ × ℚ) :
    Except String (List ℚ × List ℚ × List ℚ × List ℝ) :=
  let v_bins := arangeQ (listMin doppler_shift)
    (listMax doppler_shift + bin_width) bin_width
  let nb := v_bins.length - 1
  let wv_bin := (List.range nb).map (binned_mean v_bins doppler_shift wavelength)
  let v_bin := (List.range nb).map (binned_mean v_bins doppler_shift doppler_shift)
  let f_bin := (List.range nb).map (binned_mean v_bins doppler_shift flux)
  if final_uncertainty = "combine" then
    let u_bin := (List.range nb).map (fun i =>
      Real.sqrt ((binned_sum v_bins doppler_shift
          (flux_uncertainty.map (fun x => x ^ 2)) i : ℚ) : ℝ) /
        Real.sqrt ((binned_count v_bins doppler_shift i : ℕ) : ℝ))
    .ok (wv_bin, v_bin, f_bin, u_bin)
  else if final_uncertainty = "poisson" then
    let u_bin := f_bin.map (fun fb => ((((pci fb).1 + (pci fb).2) / 2 : ℚ) : ℝ))
    .ok (wv_bin, v_bin, f_bin, u_bin)
  else .error "This final uncertainty type is not implemented."

/-- The uncertainties of the samples in bin `i`. -/
def bin_member_uncs (edges ds us : List ℚ) (i : ℕ) : List ℚ :=
  (binMembers edges ds i).map (fun j => us.getD j 0)

/-- Modelled from the spec claim's words: "the quadrature combination of the
member uncertainties normalized by the bin's sample count" —
`sqrt(Σ uᵢ²) / count`.  Used only to compare against the implementation. -/
noncomputable def quadrature_over_count (us : List ℚ) : ℝ :=
  Real.sqrt (((us.map (fun x => x ^ 2)).sum : ℚ) : ℝ) / (us.length : ℝ)

lemma getD_map_sq (uu : List ℚ) (j : ℕ) :
    (uu.map (fun x => x ^ 2)).getD j 0 = uu.getD j 0 ^ 2 := by
  by_cases hj : j < uu.length
  · rw [List.getD_eq_getElem _ _ (by simpa using hj),
      List.getD_eq_getElem _ _ hj, List.getElem_map]
  · rw [List.getD_eq_default _ _ (by simpa using not_lt.1 hj),
      List.getD_eq_default _ _ (not_lt.1 hj)]
    norm_num

/-- The binned sum of the squared uncertainty array is the sum of squares of
the bin's member uncertainties. -/
lemma binned_sum_sq (edges ds uu : List ℚ) (i : ℕ) :
    binned_sum edges ds (uu.map (fun x => x ^ 2)) i =
      ((bin_member_uncs edges ds uu i).map (fun x => x ^ 2)).sum := by
  unfold binned_sum bin_member_uncs
  rw [List.map_map]
  congr 1
  apply List.map_congr_left
  intro j _
  simp only [Function.comp_apply]
  exact getD_map_sq uu j

/-- C5 counterexample: four samples with uncertainty 1 land in a single bin;
the code returns the per-bin uncertainty `sqrt(4)/sqrt(4) = 1`, while the
claimed "quadrature combination normalized by the bin's sample count" is
`sqrt(4)/4 = 1/2`. -/
theorem claim_C5_counterexample :
    (bin_spectrum 10 [0, 0, 0, 0] [0, 1, 2, 3] [0, 0, 0, 0] [1, 1, 1, 1]
        "combine" (fun _ => (0, 0))).map (fun t => t.2.2.2) =
      Except.ok [(1 : ℝ)] ∧
    bin_member_uncs
      (arangeQ (listMin [0, 1, 2, 3]) (listMax [0, 1, 2, 3] + 10) 10)
      [0, 1, 2, 3] [1, 1, 1, 1] 0 = [1, 1, 1, 1] ∧
    quadrature_over_count [1, 1, 1, 1] = 1 / 2 ∧
    (1 : ℝ) ≠ 1 / 2 := by
  have hceil : ⌈((listMax [0, 1, 2, 3] + 10 : ℚ) - listMin [0, 1, 2, 3]) / 10⌉
      = 2 := by
    have h1 : ((listMax [0, 1, 2, 3] + 10 : ℚ) - listMin [0, 1, 2, 3]) / 10 =
        13 / 10 := by
      norm_num [listMin, listMax]
    rw [h1]
    norm_num [Int.ceil_eq_iff]
  have hedges : arangeQ (listMin [0, 1, 2, 3]) (listMax [0, 1, 2, 3] + 10) 10
      = [0, 10] := by
    unfold arangeQ
    rw [hceil, show Int.toNat 2 = 2 from rfl,
      show List.range 2 = [0, 1] from rfl]
    norm_num [listMin, min_def]
  have hs4 : Real.sqrt (4 : ℝ) = 2 := by
    rw [show (4 : ℝ) = 2 ^ 2 by norm_num,
      Real.sqrt_sq (by norm_num : (0 : ℝ) ≤ 2)]
  refine ⟨?_, ?_, ?_, by norm_num⟩
  · simp only [bin_spectrum]
    rw [hedges, if_pos trivial]
    have hsum : binned_sum [0, 10] [0, 1, 2, 3]
        (([1, 1, 1, 1] : List ℚ).map (fun x => x ^ 2)) 0 = 4 := by
      norm_num [binned_sum, binMembers, inBin, List.filter, List.range_succ]
    have hcount : binned_count [0, 10] [0, 1, 2, 3] 0 = 4 := by
      norm_num [binned_count, binMembers, inBin, List.filter, List.range_succ]
    simp only [Except.map]
    rw [show ([0, 10] : List ℚ).length - 1 = 1 from rfl,
      show List.range 1 = [0] from rfl, List.map_cons, List.map_nil,
      hsum, hcount]
    norm_num [hs4]
  · rw [hedges]
    norm_num [bin_member_uncs, binMembers, inBin, List.filter, List.range_succ]
  · unfold quadrature_over_count
    norm_num [hs4]

/-- C5 (amended): `bin_spectrum` with `'combine'` returns per-bin
uncertainties equal to the quadrature combination of the member
uncertainties divided by the *square root* of the bin's sample count; with
`'poisson'` the uncertainty is the midpoint of the Poisson confidence
interval of the binned flux; any other mode fails with the
`UnsupportedModeError` (`ValueError`). -/
theorem claim_C5_bin_spectrum_modes (bw : ℚ) (wv ds f uu : List ℚ)
    (pci : ℚ → ℚ × ℚ) (mode : String) :
    (bin_spectrum bw wv ds f uu "combine" pci =
      Except.ok
        ((List.range
            ((arangeQ (listMin ds) (listMax ds + bw) bw).length - 1)).map
          (binned_mean (arangeQ (listMin ds) (listMax ds + bw) bw) ds wv),
          (List.range
            ((arangeQ (listMin ds) (listMax ds + bw) bw).length - 1)).map
            (binned_mean (arangeQ (listMin ds) (listMax ds + bw) bw) ds ds),
          (List.range
            ((arangeQ (listMin ds) (listMax ds + bw) bw).length - 1)).map
            (binned_mean (arangeQ (listMin ds) (listMax ds + bw) bw) ds f),
          (List.range
            ((arangeQ (listMin ds) (listMax ds + bw) bw).length - 1)).map
            (fun i =>
              Real.sqrt ((((bin_member_uncs
                  (arangeQ (listMin ds) (listMax ds + bw) bw) ds uu i).map
                (fun x => x ^ 2)).sum : ℚ) : ℝ) /
              Real.sqrt
                ((binned_count (arangeQ (listMin ds) (listMax ds + bw) bw)
                  ds i : ℕ) : ℝ)))) ∧
    (bin_spectrum bw wv ds f uu "poisson" pci =
      Except.ok
        ((List.range
            ((arangeQ (listMin ds) (listMax ds + bw) bw).length - 1)).map
          (binned_mean (arangeQ (listMin ds) (listMax ds + bw) bw) ds wv),
          (List.range
            ((arangeQ (listMin ds) (listMax ds + bw) bw).length - 1)).map
            (binned_mean (arangeQ (listMin ds) (listMax ds + bw) bw) ds ds),
          (List.range
            ((arangeQ (listMin ds) (listMax ds + bw) bw).length - 1)).map
            (binned_mean (arangeQ (listMin ds) (listMax ds + bw) bw) ds f),
          ((List.range
            ((arangeQ (listMin ds) (listMax ds + bw) bw).length - 1)).map
            (binned_mean (arangeQ (listMin ds) (listMax ds + bw) bw) ds f)).map
            (fun fb => ((((pci fb).1 + (pci fb).2) / 2 : ℚ) : ℝ)))) ∧
    (mode ≠ "combine" → mode ≠ "poisson" →
      bin_spectrum bw wv ds f uu mode pci =
        Except.error "This final uncertainty type is not implemented.") := by
  refine ⟨?_, ?_, fun h1 h2 => ?_⟩
  · simp only [bin_spectrum]
    rw [if_pos trivial]
    simp only [Except.ok.injEq, Prod.mk.injEq]
    refine ⟨trivial, trivial, trivial, ?_⟩
    apply List.map_congr_left
    intro i _
    rw [binned_sum_sq]
  · simp only [bin_spectrum]
    rw [if_neg (by decide : ¬ ("poisson" : String) = "combine"),
      if_pos trivial]
  · simp only [bin_spectrum]
    rw [if_neg h1, if_neg h2]

/-- C5 witness: the unsupported-mode branch at the concrete mode
`"quadratic"`. -/
theorem claim_C5_bin_spectrum_modes_witness :
    bin_spectrum 10 [0] [0] [0] [1] "quadratic" (fun _ => (0, 0)) =
      Except.error "This final uncertainty type is not implemented." :=
  (claim_C5_bin_spectrum_modes 10 [0] [0] [0] [1] (fun _ => (0, 0))
    "quadratic").2.2 (by decide) (by decide)

end Blastoise
